import Mathlib

set_option autoImplicit false

/-!
Verification of the style-resolution and box-tree-construction core of the
robinson repository (src/dom.rs, src/style.rs, src/layout.rs).

The Rust code is shallowly embedded: `HashMap` becomes an association list
with overwrite-on-insert and first-match lookup, borrowing becomes plain
values, and the recursive `build_layout_tree` (which can diverge because its
inline branch recurses on the parent node) is embedded with explicit fuel,
returning `Except`.  A Rust `panic!` is embedded as a distinct `Except.error`
constructor so that reaching the panic is observable.
-/

namespace Robinson

/-! ### The css module (types consumed by style.rs)

The repository's `css` module is not part of the sources under verification;
style.rs imports `Rule`, `Selector`, `SimpleSelector`, `Specificity`,
`StyleSheet` and `Value` from it.  These types are therefore modelled from
the specification (spec.md section 3). -/

/-- Modelled from the spec: `Value` is an opaque tagged union whose one
relevant variant is `Keyword(string)`; other variants are carried opaquely
through the cascade without inspection (modelled by `otherVal`). -/
inductive Value where
  | keyword (s : String)
  | otherVal (tag : String)
deriving DecidableEq, Repr

/-- Modelled from the spec: a simple selector has an optional tag-name
constraint, an optional id constraint, and a set of class constraints.
(`class` is a Lean keyword, so the field is named `classList`.) -/
structure SimpleSelector where
  tag_name : Option String
  id : Option String
  classList : List String
deriving DecidableEq, Repr

/-- Modelled from the spec: the only supported selector variant is the
simple selector. -/
inductive Selector where
  | simple (s : SimpleSelector)
deriving DecidableEq, Repr

/-- Modelled from the spec: `Specificity` is an ordered triple
`(id_count, class_count, tag_count)` comparable lexicographically. -/
abbrev Specificity := Nat × Nat × Nat

/-- Modelled from the spec: lexicographic comparison of specificity
triples (the order used by the cascade's `sort_by`). -/
def specLe (a b : Specificity) : Prop :=
  a.1 < b.1 ∨ (a.1 = b.1 ∧ (a.2.1 < b.2.1 ∨ (a.2.1 = b.2.1 ∧ a.2.2 ≤ b.2.2)))

instance : DecidableRel specLe := fun a b => by
  unfold specLe; infer_instance

theorem specLe_refl (a : Specificity) : specLe a a :=
  Or.inr ⟨rfl, Or.inr ⟨rfl, Nat.le_refl _⟩⟩

/-- Modelled from the spec: a selector's specificity is 1 if an id is
present, the number of class constraints, and 1 if a tag is present. -/
def SimpleSelector.specificity (s : SimpleSelector) : Specificity :=
  ((if s.id.isSome then 1 else 0),
   s.classList.length,
   (if s.tag_name.isSome then 1 else 0))

/-- Modelled from the spec: specificity of a selector. -/
def Selector.specificity : Selector → Specificity
  | .simple s => s.specificity

/-- Modelled from the spec: a declaration is a property name with a value. -/
structure Declaration where
  name : String
  value : Value
deriving DecidableEq, Repr

/-- Modelled from the spec: a rule is an ordered sequence of selectors with
an ordered sequence of declarations. -/
structure Rule where
  selectors : List Selector
  declarations : List Declaration
deriving DecidableEq, Repr

/-- Modelled from the spec: a stylesheet is an ordered sequence of rules. -/
structure StyleSheet where
  rules : List Rule
deriving DecidableEq, Repr

/-! ### Maps

Rust `HashMap<String, V>` is modelled as an association list with unique
keys: `insert` overwrites the existing entry for a key, `get` returns the
first (hence only) entry for a key. -/

/-- Association-list model of `HashMap<String, V>::get`. -/
def mapGet {α : Type} : List (String × α) → String → Option α
  | [], _ => none
  | (k', v') :: rest, k => if k' = k then some v' else mapGet rest k

/-- Association-list model of `HashMap<String, V>::insert` (overwrites). -/
def mapInsert {α : Type} : List (String × α) → String → α → List (String × α)
  | [], k, v => [(k, v)]
  | (k', v') :: rest, k, v =>
    if k' = k then (k, v) :: rest else (k', v') :: mapInsert rest k v

/-- dom.rs: `pub type AttrMap = HashMap<String, String>`. -/
abbrev AttrMap := List (String × String)

/-- style.rs: `pub type PropertyMap = HashMap<String, Value>`. -/
abbrev PropertyMap := List (String × Value)

/-! ### dom.rs: the document model -/

/-- dom.rs `ElementData`: tag name and attribute map. -/
structure ElementData where
  tag_name : String
  attributes : AttrMap
deriving DecidableEq, Repr

/-- dom.rs `NodeType`: text or element. -/
inductive NodeType where
  | Text (s : String)
  | Element (e : ElementData)
deriving DecidableEq, Repr

/-- dom.rs `Node`: a node type with an ordered list of children. -/
inductive Node where
  | mk (node_type : NodeType) (children : List Node)

/-- Projection for the `node_type` field of `Node`. -/
def Node.node_type : Node → NodeType
  | .mk nt _ => nt

/-- Projection for the `children` field of `Node`. -/
def Node.children : Node → List Node
  | .mk _ cs => cs

/-- dom.rs `ElementData::id`: the `id` attribute, if present. -/
def ElementData.id (e : ElementData) : Option String :=
  mapGet e.attributes "id"

/-- Rust `str::split(' ')` on the character list: the pieces between the
space characters, empty pieces included, and `[""]` for the empty string. -/
def splitSpaces : List Char → List String
  | [] => [""]
  | c :: cs =>
    match splitSpaces cs with
    | [] => []
    | p :: ps => if c = ' ' then "" :: p :: ps else String.mk (c :: p.data) :: ps

/-- dom.rs `ElementData::classes`: the `class` attribute split on the space
character (`class_list.split(' ')`), or the empty set when absent.  The
Rust `HashSet<&str>` is modelled as the list of split pieces with list
membership as the set membership. -/
def ElementData.classes (e : ElementData) : List String :=
  match mapGet e.attributes "class" with
  | some class_list => splitSpaces class_list.data
  | none => []

/-- dom.rs `text`: build a text node. -/
def text (data : String) : Node :=
  .mk (.Text data) []

/-- dom.rs `elem`: build an element node. -/
def elem (name : String) (attrs : AttrMap) (children : List Node) : Node :=
  .mk (.Element ⟨name, attrs⟩) children

/-! ### dom.rs: `impl Display for Node` (serialization)

Rust sorts the attribute pairs with `Vec::sort` (a stable sort under the
derived lexicographic `Ord` on `(&String, &String)` pairs) before emitting
them.  String comparison is modelled by a structural lexicographic
comparison of the character lists, which agrees with Rust's byte-wise
comparison (UTF-8 byte order coincides with code-point order). -/

/-- Lexicographic strict order on character lists (Rust `Ord` on strings). -/
def charListLt : List Char → List Char → Bool
  | _, [] => false
  | [], _ :: _ => true
  | c :: cs, d :: ds => decide (c < d) || (decide (c = d) && charListLt cs ds)

/-- Strict lexicographic order on strings, via their character lists. -/
def strLt (a b : String) : Bool :=
  charListLt a.data b.data

/-- The order used by `attrs.sort()` in dom.rs: derived lexicographic order
on `(name, value)` pairs. -/
def attrLe (p q : String × String) : Prop :=
  strLt p.1 q.1 = true ∨ (p.1 = q.1 ∧ (strLt p.2 q.2 = true ∨ p.2 = q.2))

instance : DecidableRel attrLe := fun p q => by
  unfold attrLe; infer_instance

/-- dom.rs Display: the sorted attribute list (`attrs.sort()`), modelled by
insertion sort, which is stable like Rust's `Vec::sort`. -/
def sortedAttrs (attrs : AttrMap) : AttrMap :=
  List.insertionSort attrLe attrs

/-- dom.rs Display: the attribute segment `{ name=\x22value\x22 ...}` built by
folding `format!("{} {}=\x22{}\x22", s, name, value)` over the sorted pairs. -/
def attrsString (attrs : AttrMap) : String :=
  (sortedAttrs attrs).foldl (fun s p => s ++ " " ++ p.1 ++ "=\"" ++ p.2 ++ "\"") ""

mutual

/-- dom.rs `impl Display for Node`: text renders as its text, an element as
`<tag attrs>children</tag>`. -/
def nodeToString : Node → String
  | .mk (.Text t) _ => t
  | .mk (.Element e) cs =>
    "<" ++ e.tag_name ++ attrsString e.attributes ++ ">"
      ++ forestToString cs ++ "</" ++ e.tag_name ++ ">"

/-- dom.rs Display: children rendered in order and concatenated
(the fold `s = format!("{}{}", s, node)`). -/
def forestToString : List Node → String
  | [] => ""
  | n :: ns => nodeToString n ++ forestToString ns

end

/-! ### style.rs: styled nodes and the cascade -/

/-- style.rs `StyledNode`: a DOM node, its specified values, and styled
children. -/
inductive StyledNode where
  | mk (node : Node) (specified_values : PropertyMap) (children : List StyledNode)

/-- Projection for the `node` field of `StyledNode`. -/
def StyledNode.node : StyledNode → Node
  | .mk n _ _ => n

/-- Projection for the `specified_values` field of `StyledNode`. -/
def StyledNode.specified_values : StyledNode → PropertyMap
  | .mk _ sv _ => sv

/-- Projection for the `children` field of `StyledNode`. -/
def StyledNode.children : StyledNode → List StyledNode
  | .mk _ _ cs => cs

/-- style.rs `Display`: inline, block, or none. -/
inductive Display where
  | inline
  | block
  | none
deriving DecidableEq, Repr

/-- style.rs `StyledNode::value`: the specified value of a property. -/
def StyledNode.value (s : StyledNode) (name : String) : Option Value :=
  mapGet s.specified_values name

/-- style.rs `StyledNode::display`: the `display` property; only the
keywords "block" and "none" are special, everything else is inline. -/
def StyledNode.display (s : StyledNode) : Display :=
  match s.value "display" with
  | some (.keyword kw) =>
    if kw = "block" then .block
    else if kw = "none" then .none
    else .inline
  | _ => .inline

/-- style.rs `StyledNode::lookup`: property `name`, else `fallback_name`,
else the default. -/
def StyledNode.lookup (s : StyledNode) (name fallback_name : String) (default : Value) : Value :=
  match s.value name with
  | some v => v
  | Option.none =>
    match s.value fallback_name with
    | some v => v
    | Option.none => default

/-- style.rs `matches_simple_selector`: tag-name constraint, id constraint,
and class subset constraint, each skipped when absent. -/
def matches_simple_selector (e : ElementData) (s : SimpleSelector) : Bool :=
  if s.tag_name.any (fun name => e.tag_name ≠ name) then false
  else if s.id.any (fun i => e.id ≠ some i) then false
  else if s.classList.any (fun c => !(e.classes.contains c)) then false
  else true

/-- style.rs `matches`: dispatch on the selector variant.  (`matches` is a
reserved Lean token, hence the longer name.) -/
def selector_matches (e : ElementData) : Selector → Bool
  | .simple s => matches_simple_selector e s

/-- style.rs `MatchedRule`: a specificity paired with a rule. -/
abbrev MatchedRule := Specificity × Rule

/-- style.rs `match_rule`: the first selector of the rule that matches the
element determines the rule's specificity. -/
def match_rule (e : ElementData) (r : Rule) : Option MatchedRule :=
  (r.selectors.find? (fun sel => selector_matches e sel)).map
    (fun sel => (sel.specificity, r))

/-- style.rs `matching_rules`: all rules that match, in stylesheet order. -/
def matching_rules (e : ElementData) (sheet : StyleSheet) : List MatchedRule :=
  sheet.rules.filterMap (fun r => match_rule e r)

/-- The comparison used by `rules.sort_by(|&(a, _), &(b, _)| a.cmp(&b))`:
compare matched rules by specificity only. -/
def ruleLe (x y : MatchedRule) : Prop :=
  specLe x.1 y.1

instance : DecidableRel ruleLe := fun x y => by
  unfold ruleLe; infer_instance

/-- style.rs `specified_values`: stable-sort the matching rules ascending by
specificity (Rust `Vec::sort_by` is stable; a stable sort is modelled by
insertion sort) and fold every declaration into the map, later insertions
overwriting earlier ones. -/
def specified_values (e : ElementData) (sheet : StyleSheet) : PropertyMap :=
  (List.insertionSort ruleLe (matching_rules e sheet)).foldl
    (fun values pr =>
      pr.2.declarations.foldl (fun vs d => mapInsert vs d.name d.value) values)
    []

mutual

/-- style.rs `style_tree`: attach specified values to every node; text
nodes get the empty map; children are styled recursively in order. -/
def style_tree (root : Node) (sheet : StyleSheet) : StyledNode :=
  match root with
  | .mk nt cs =>
    .mk (.mk nt cs)
      (match nt with
       | .Element e => specified_values e sheet
       | .Text _ => [])
      (style_forest cs sheet)

/-- style.rs `style_tree`: the recursion over the child list
(`root.children.iter().map(|child| style_tree(child, stylesheet))`). -/
def style_forest (ns : List Node) (sheet : StyleSheet) : List StyledNode :=
  match ns with
  | [] => []
  | n :: rest => style_tree n sheet :: style_forest rest sheet

end

/-! ### layout.rs: the layout box tree -/

/-- layout.rs `BoxType`: block node, inline node, or anonymous block.  The
Rust borrow `&'a StyledNode<'a>` is modelled by the styled node value. -/
inductive BoxType where
  | blockNode (s : StyledNode)
  | inlineNode (s : StyledNode)
  | anonymousBlock

/-- layout.rs `LayoutBox`: a box type with child boxes.  The `dimensions`
field (geometry, all zero at construction and never touched by
`build_layout_tree`) is omitted from the model. -/
inductive LayoutBox where
  | mk (box_type : BoxType) (children : List LayoutBox)

/-- Projection for the `box_type` field of `LayoutBox`. -/
def LayoutBox.box_type : LayoutBox → BoxType
  | .mk bt _ => bt

/-- Projection for the `children` field of `LayoutBox`. -/
def LayoutBox.children : LayoutBox → List LayoutBox
  | .mk _ cs => cs

/-- layout.rs `LayoutBox::new`: a box with no children. -/
def LayoutBox.new (bt : BoxType) : LayoutBox :=
  .mk bt []

/-- layout.rs `get_inline_container` followed by `children.push(b)`:
an inline or anonymous box receives the new child directly; a block box
routes it into its last child when that child is already an anonymous
block, and otherwise appends a fresh anonymous block to hold it. -/
def push_to_inline_container (root : LayoutBox) (b : LayoutBox) : LayoutBox :=
  match root.box_type with
  | .inlineNode _ | .anonymousBlock => .mk root.box_type (root.children ++ [b])
  | .blockNode _ =>
    match root.children.getLast? with
    | some last =>
      match last.box_type with
      | .anonymousBlock =>
        .mk root.box_type
          (root.children.dropLast ++ [LayoutBox.mk last.box_type (last.children ++ [b])])
      | _ =>
        .mk root.box_type (root.children ++ [LayoutBox.mk .anonymousBlock [b]])
    | Option.none =>
      .mk root.box_type (root.children ++ [LayoutBox.mk .anonymousBlock [b]])

/-- Errors of the embedded `build_layout_tree`: a Rust `panic!` with its
message, or fuel exhaustion (standing for non-termination of the Rust
recursion). -/
inductive BuildErr where
  | panicked (msg : String)
  | outOfFuel
deriving DecidableEq, Repr

/-- layout.rs `build_layout_tree`, body of the loop over
`style_node.children`: a block child is appended as built from the child; an
inline child is routed into the current inline container, but the box pushed
is built from `style_node` — the parent — exactly as the source reads
(`.push(build_layout_tree(style_node))`); a `display: none` child is
skipped. -/
def buildStep (build : StyledNode → Except BuildErr LayoutBox)
    (style_node : StyledNode) (root : LayoutBox) (child : StyledNode) :
    Except BuildErr LayoutBox :=
  match child.display with
  | .block => do
    let b ← build child
    pure (LayoutBox.mk root.box_type (root.children ++ [b]))
  | .inline => do
    let b ← build style_node
    pure (push_to_inline_container root b)
  | .none => pure root

/-- layout.rs `build_layout_tree`, embedded with fuel: the root box is a
block or inline node according to the node's display (`display: none` at
the root is a `panic!`), and the children are folded through `buildStep`. -/
def build_layout_tree : Nat → StyledNode → Except BuildErr LayoutBox
  | 0, _ => .error .outOfFuel
  | fuel + 1, style_node =>
    match style_node.display with
    | .none => .error (.panicked "Root not has display: none")
    | .block =>
      style_node.children.foldlM (buildStep (build_layout_tree fuel) style_node)
        (LayoutBox.new (.blockNode style_node))
    | .inline =>
      style_node.children.foldlM (buildStep (build_layout_tree fuel) style_node)
        (LayoutBox.new (.inlineNode style_node))


/-! ### Concrete fixtures used by witnesses and counterexamples -/

/-- A styled text node with no properties and no children (inline). -/
def inlineLeaf : StyledNode :=
  .mk (text "t") [] []

/-- A styled element with `display: block` and no children. -/
def blockLeaf : StyledNode :=
  .mk (elem "h1" [] []) [("display", Value.keyword "block")] []

/-- A styled element with `display: none`. -/
def noneLeaf : StyledNode :=
  .mk (elem "q" [] []) [("display", Value.keyword "none")] []

/-- A `display: block` element whose only child is inline: the input on
which the inline branch of `build_layout_tree` recurses forever. -/
def blockWithInlineChild : StyledNode :=
  .mk (elem "div" [] []) [("display", Value.keyword "block")] [inlineLeaf]

/-- A `display: block` element with a block child followed by an inline
child (the scenario of the box-tree grouping property). -/
def blockThenInline : StyledNode :=
  .mk (elem "div" [] []) [("display", Value.keyword "block")] [blockLeaf, inlineLeaf]

/-! ### C10: lookup -/

/-- C10: for every styled node and strings `name`, `fallback_name` and
default value, `lookup` returns the specified value of `name` when present,
otherwise the specified value of `fallback_name` when present, otherwise
the default; being a total function it always returns a value. -/
theorem C10_lookup_fallback_chain :
    ∀ (s : StyledNode) (name fallback_name : String) (default : Value),
      (∀ v, s.value name = some v → s.lookup name fallback_name default = v) ∧
      (s.value name = Option.none →
        ∀ v, s.value fallback_name = some v → s.lookup name fallback_name default = v) ∧
      (s.value name = Option.none → s.value fallback_name = Option.none →
        s.lookup name fallback_name default = default) := by
  intro s name fallback_name default
  refine ⟨?_, ?_, ?_⟩
  · intro v hv
    unfold StyledNode.lookup
    rw [hv]
  · intro h v hv
    unfold StyledNode.lookup
    rw [h, hv]
  · intro h h'
    unfold StyledNode.lookup
    rw [h, h']

/-- Witness for C10 at concrete inputs: a node carrying only
`margin-left` falls through `margin-left`, then `margin`, then default. -/
theorem C10_lookup_fallback_chain_witness :
    StyledNode.lookup (.mk (text "t") [("margin", Value.keyword "auto")] [])
      "margin-left" "margin" (Value.keyword "zero") = Value.keyword "auto" :=
  (C10_lookup_fallback_chain (.mk (text "t") [("margin", Value.keyword "auto")] [])
    "margin-left" "margin" (Value.keyword "zero")).2.1 rfl (Value.keyword "auto") rfl

/-! ### C2: root display none -/

/-- C2: on a styled node whose own display resolves to `None`, the embedded
`build_layout_tree` reaches the `panic!` branch — the Rust code aborts the
process with `panic!("Root not has display: none")` instead of returning a
distinct error result to the caller as the specification requires. -/
theorem C2_root_display_none_panics :
    ∀ (s : StyledNode) (fuel : Nat), s.display = Display.none →
      build_layout_tree (fuel + 1) s =
        Except.error (BuildErr.panicked "Root not has display: none") := by
  intro s fuel h
  unfold build_layout_tree
  rw [h]

/-- Witness for C2: the panic branch is reached on a concrete
`display: none` root. -/
theorem C2_root_display_none_panics_witness :
    build_layout_tree 1 noneLeaf =
      Except.error (BuildErr.panicked "Root not has display: none") :=
  C2_root_display_none_panics noneLeaf 0 rfl

/-! ### C1 and C7: the inline branch recurses on the parent -/

/-- C1: evaluating the code at the failing input.  For a `display: block`
node with a single inline child, the inline branch pushes
`build_layout_tree(style_node)` — the parent — so the recursion never
terminates: the embedding runs out of fuel for every fuel bound, and no
layout box containing the child's subtree (or anything else) is ever
produced. -/
theorem C1_inline_child_diverges :
    ∀ fuel, build_layout_tree fuel blockWithInlineChild =
      Except.error BuildErr.outOfFuel := by
  intro fuel
  induction fuel with
  | zero => rfl
  | succ n ih =>
    have h1 : build_layout_tree (n + 1) blockWithInlineChild =
        Except.bind (Except.bind (build_layout_tree n blockWithInlineChild)
            (fun b => Except.ok (push_to_inline_container
              (LayoutBox.new (BoxType.blockNode blockWithInlineChild)) b)))
          (fun acc => Except.ok acc) := rfl
    rw [h1, ih]
    rfl

/-- C7: evaluating the code at the failing input.  For a `display: block`
element with a block child followed by an inline child, the code never
returns a box at all (for every fuel bound the embedding runs out of fuel),
so in particular it does not return the claimed Block box with a Block and
an AnonymousBlock child. -/
theorem C7_block_then_inline_diverges :
    ∀ fuel, build_layout_tree fuel blockThenInline =
      Except.error BuildErr.outOfFuel := by
  intro fuel
  induction fuel with
  | zero => rfl
  | succ n ih =>
    cases n with
    | zero => rfl
    | succ m =>
      have h1 : build_layout_tree (m + 2) blockThenInline =
          Except.bind (Except.bind (build_layout_tree (m + 1) blockThenInline)
              (fun b => Except.ok (push_to_inline_container
                (LayoutBox.mk (BoxType.blockNode blockThenInline)
                  [LayoutBox.mk (BoxType.blockNode blockLeaf) []]) b)))
            (fun acc => Except.ok acc) := rfl
      rw [h1, ih]
      rfl

/-! ### C5: display resolution and omission of display-none children -/

/-- C5: display resolves from the property-map key "display": keyword
"block" yields Block, keyword "none" yields None, and every other value
(any other keyword, a non-keyword value, or absence of the key) yields
Inline; moreover a child whose display is None contributes nothing — the
child-processing step of `build_layout_tree` returns the parent box
unchanged, so the child and its whole subtree are omitted from the box
tree. -/
theorem C5_display_resolution_and_none_skipped :
    (∀ s : StyledNode,
      (s.display = Display.block ↔ s.value "display" = some (Value.keyword "block")) ∧
      (s.display = Display.none ↔ s.value "display" = some (Value.keyword "none")) ∧
      (s.display = Display.inline ↔
        (s.value "display" ≠ some (Value.keyword "block") ∧
         s.value "display" ≠ some (Value.keyword "none")))) ∧
    (∀ (build : StyledNode → Except BuildErr LayoutBox)
        (style_node : StyledNode) (root : LayoutBox) (child : StyledNode),
      child.display = Display.none →
        buildStep build style_node root child = Except.ok root) := by
  constructor
  · intro s
    cases h : s.value "display" with
    | none => simp [StyledNode.display, h]
    | some v =>
      cases v with
      | otherVal t => simp [StyledNode.display, h]
      | keyword kw =>
        by_cases hb : kw = "block"
        · subst hb; simp [StyledNode.display, h]
        · by_cases hn : kw = "none"
          · subst hn; simp [StyledNode.display, h]
          · simp [StyledNode.display, h, hb, hn]
  · intro build style_node root child h
    unfold buildStep
    rw [h]
    rfl

/-- Witness for C5: a concrete `display: none` child is skipped by the
child-processing step. -/
theorem C5_display_resolution_and_none_skipped_witness :
    buildStep (fun _ => Except.error BuildErr.outOfFuel) inlineLeaf
      (LayoutBox.new BoxType.anonymousBlock) noneLeaf =
      Except.ok (LayoutBox.new BoxType.anonymousBlock) :=
  C5_display_resolution_and_none_skipped.2
    (fun _ => Except.error BuildErr.outOfFuel) inlineLeaf
    (LayoutBox.new BoxType.anonymousBlock) noneLeaf rfl

/-! ### C4: simple selector matching -/

/-- C4: `matches` on a simple selector holds exactly when the optional
tag-name constraint, the optional id constraint, and the class subset
constraint all hold; an absent constraint always holds, and an element
without a `class` attribute has an empty class set. -/
theorem C4_simple_selector_matching :
    ∀ (e : ElementData) (s : SimpleSelector),
      matches_simple_selector e s = true ↔
        ((∀ t, s.tag_name = some t → e.tag_name = t) ∧
         (∀ i, s.id = some i → e.id = some i) ∧
         (∀ c ∈ s.classList, c ∈ e.classes)) := by
  intro e s
  obtain ⟨to?, io?, cl⟩ := s
  have hchar : matches_simple_selector e ⟨to?, io?, cl⟩ = true ↔
      (to?.any (fun name => e.tag_name ≠ name) = false ∧
       io?.any (fun i => e.id ≠ some i) = false ∧
       cl.any (fun c => !(e.classes.contains c)) = false) := by
    unfold matches_simple_selector
    cases hA : to?.any (fun name => e.tag_name ≠ name) <;>
      cases hB : io?.any (fun i => e.id ≠ some i) <;>
        cases hC : cl.any (fun c => !(e.classes.contains c)) <;>
          simp [hA, hB, hC]
  have hA : (to?.any (fun name => e.tag_name ≠ name) = false) ↔
      (∀ t, to? = some t → e.tag_name = t) := by
    cases to? with
    | none => simp
    | some t => simp [Option.any]
  have hB : (io?.any (fun i => e.id ≠ some i) = false) ↔
      (∀ i, io? = some i → e.id = some i) := by
    cases io? with
    | none => simp
    | some i => simp [Option.any]
  have hC : (cl.any (fun c => !(e.classes.contains c)) = false) ↔
      (∀ c ∈ cl, c ∈ e.classes) := by
    simp [List.any_eq_true]
  exact hchar.trans (and_congr hA (and_congr hB hC))

/-- Witness for C4: a concrete selector with a tag, an id, and one class
matches a concrete element carrying them. -/
theorem C4_simple_selector_matching_witness :
    matches_simple_selector ⟨"p", [("id", "main"), ("class", "a b")]⟩
      ⟨some "p", some "main", ["b"]⟩ = true := by
  refine (C4_simple_selector_matching ⟨"p", [("id", "main"), ("class", "a b")]⟩
    ⟨some "p", some "main", ["b"]⟩).mpr ⟨?_, ?_, ?_⟩
  · intro t ht
    cases ht
    rfl
  · intro i hi
    cases hi
    rfl
  · decide


/-! ### C9: order-theoretic facts about the attribute sort -/

theorem charListLt_irrefl : ∀ l, charListLt l l = false := by
  intro l
  induction l with
  | nil => rfl
  | cons c cs ih => simp [charListLt, ih]

theorem charListLt_trans : ∀ (a b c : List Char),
    charListLt a b = true → charListLt b c = true → charListLt a c = true := by
  intro a
  induction a with
  | nil =>
    intro b c hab hbc
    cases b with
    | nil => exact absurd hab (by simp [charListLt])
    | cons y ys =>
      cases c with
      | nil => exact absurd hbc (by simp [charListLt])
      | cons z zs => simp [charListLt]
  | cons x xs ih =>
    intro b c hab hbc
    cases b with
    | nil => exact absurd hab (by simp [charListLt])
    | cons y ys =>
      cases c with
      | nil => exact absurd hbc (by simp [charListLt])
      | cons z zs =>
        simp only [charListLt, Bool.or_eq_true, Bool.and_eq_true,
          decide_eq_true_eq] at hab hbc ⊢
        rcases hab with h1 | ⟨he1, h1⟩
        · rcases hbc with h2 | ⟨he2, h2⟩
          · exact Or.inl (lt_trans h1 h2)
          · exact Or.inl (by rw [← he2]; exact h1)
        · rcases hbc with h2 | ⟨he2, h2⟩
          · exact Or.inl (by rw [he1]; exact h2)
          · exact Or.inr ⟨he1.trans he2, ih ys zs h1 h2⟩

theorem charListLt_tri : ∀ (a b : List Char),
    charListLt a b = true ∨ a = b ∨ charListLt b a = true := by
  intro a
  induction a with
  | nil =>
    intro b
    cases b with
    | nil => exact Or.inr (Or.inl rfl)
    | cons y ys => exact Or.inl (by simp [charListLt])
  | cons x xs ih =>
    intro b
    cases b with
    | nil => exact Or.inr (Or.inr (by simp [charListLt]))
    | cons y ys =>
      rcases lt_trichotomy x y with h | h | h
      · exact Or.inl (by simp [charListLt, h])
      · subst h
        rcases ih ys with h2 | h2 | h2
        · exact Or.inl (by simp [charListLt, h2])
        · exact Or.inr (Or.inl (by rw [h2]))
        · exact Or.inr (Or.inr (by simp [charListLt, h2]))
      · exact Or.inr (Or.inr (by simp [charListLt, h]))

theorem strLt_irrefl (s : String) : strLt s s = false :=
  charListLt_irrefl s.data

theorem strLt_trans (a b c : String) (h1 : strLt a b = true) (h2 : strLt b c = true) :
    strLt a c = true :=
  charListLt_trans a.data b.data c.data h1 h2

theorem strLt_tri (a b : String) : strLt a b = true ∨ a = b ∨ strLt b a = true := by
  rcases charListLt_tri a.data b.data with h | h | h
  · exact Or.inl h
  · refine Or.inr (Or.inl ?_)
    cases a
    cases b
    exact congrArg String.mk h
  · exact Or.inr (Or.inr h)

instance : IsTrans (String × String) attrLe where
  trans := by
    rintro ⟨p1, p2⟩ ⟨q1, q2⟩ ⟨r1, r2⟩ hpq hqr
    rcases hpq with h1 | ⟨e1, h1⟩
    · rcases hqr with h2 | ⟨e2, h2⟩
      · exact Or.inl (strLt_trans _ _ _ h1 h2)
      · exact Or.inl (by rw [← e2]; exact h1)
    · rcases hqr with h2 | ⟨e2, h2⟩
      · exact Or.inl (by rw [e1]; exact h2)
      · refine Or.inr ⟨e1.trans e2, ?_⟩
        rcases h1 with h1 | h1 <;> rcases h2 with h2 | h2
        · exact Or.inl (strLt_trans _ _ _ h1 h2)
        · exact Or.inl (by rw [← h2]; exact h1)
        · exact Or.inl (by rw [h1]; exact h2)
        · exact Or.inr (h1.trans h2)

instance : IsAntisymm (String × String) attrLe where
  antisymm := by
    rintro ⟨p1, p2⟩ ⟨q1, q2⟩ hpq hqp
    rcases hpq with h1 | ⟨e1, h1⟩
    · rcases hqp with h2 | ⟨e2, h2⟩
      · have h := strLt_trans _ _ _ h1 h2
        rw [strLt_irrefl] at h
        exact Bool.noConfusion h
      · rw [e2] at h1
        rw [strLt_irrefl] at h1
        exact Bool.noConfusion h1
    · rcases hqp with h2 | ⟨e2, h2⟩
      · rw [e1] at h2
        rw [strLt_irrefl] at h2
        exact Bool.noConfusion h2
      · rcases h1 with h1 | h1 <;> rcases h2 with h2 | h2
        · have h := strLt_trans _ _ _ h1 h2
          rw [strLt_irrefl] at h
          exact Bool.noConfusion h
        · rw [h2] at h1
          rw [strLt_irrefl] at h1
          exact Bool.noConfusion h1
        · rw [h1] at h2
          rw [strLt_irrefl] at h2
          exact Bool.noConfusion h2
        · exact Prod.ext e1 h1

instance : IsTotal (String × String) attrLe where
  total := by
    rintro ⟨p1, p2⟩ ⟨q1, q2⟩
    rcases strLt_tri p1 q1 with h | h | h
    · exact Or.inl (Or.inl h)
    · subst h
      rcases strLt_tri p2 q2 with h2 | h2 | h2
      · exact Or.inl (Or.inr ⟨rfl, Or.inl h2⟩)
      · subst h2
        exact Or.inl (Or.inr ⟨rfl, Or.inr rfl⟩)
      · exact Or.inr (Or.inr ⟨rfl, Or.inl h2⟩)
    · exact Or.inr (Or.inl h)

/-- The sorted attribute list depends only on the multiset of attribute
pairs, not on their insertion order. -/
theorem sortedAttrs_perm_eq (a b : AttrMap) (h : a.Perm b) :
    sortedAttrs a = sortedAttrs b := by
  exact List.eq_of_perm_of_sorted
    ((List.perm_insertionSort attrLe a).trans
      (h.trans (List.perm_insertionSort attrLe b).symm))
    (List.sorted_insertionSort attrLe a)
    (List.sorted_insertionSort attrLe b)

/-! ### C9: attribute serialization -/

/-- C9: serializing an element renders its attributes in sorted-by-name
order as `name="value"` pairs independently of insertion order: two
attribute maps holding the same pairs serialize identically, and the
element `div` with attributes `a: "b"` and `c: "d"` inserted in either
order serializes as exactly `<div a="b" c="d"></div>`. -/
theorem C9_attribute_serialization :
    (∀ (tag : String) (attrs attrs' : AttrMap) (cs : List Node),
      attrs.Perm attrs' →
        nodeToString (elem tag attrs cs) = nodeToString (elem tag attrs' cs)) ∧
    nodeToString (elem "div" [("a", "b"), ("c", "d")] []) = "<div a=\"b\" c=\"d\"></div>" ∧
    nodeToString (elem "div" [("c", "d"), ("a", "b")] []) = "<div a=\"b\" c=\"d\"></div>" := by
  refine ⟨?_, rfl, rfl⟩
  intro tag attrs attrs' cs h
  show "<" ++ tag ++ attrsString attrs ++ ">" ++ forestToString cs ++ "</" ++ tag ++ ">" =
    "<" ++ tag ++ attrsString attrs' ++ ">" ++ forestToString cs ++ "</" ++ tag ++ ">"
  rw [show attrsString attrs = attrsString attrs' from by
    unfold attrsString
    rw [sortedAttrs_perm_eq attrs attrs' h]]

/-- Witness for C9: the two insertion orders of `{a: "b", c: "d"}` yield
the same serialization. -/
theorem C9_attribute_serialization_witness :
    nodeToString (elem "div" [("a", "b"), ("c", "d")] []) =
      nodeToString (elem "div" [("c", "d"), ("a", "b")] []) :=
  C9_attribute_serialization.1 "div" [("a", "b"), ("c", "d")] [("c", "d"), ("a", "b")] []
    (List.Perm.swap ("c", "d") ("a", "b") [])

/-! ### C6: no bare inline child under a block box -/

/-- Is the box an inline node box? -/
def BoxType.isInlineBox : BoxType → Bool
  | .inlineNode _ => true
  | _ => false

/-- Is the box a block node box? -/
def BoxType.isBlockBox : BoxType → Bool
  | .blockNode _ => true
  | _ => false

@[simp] theorem LayoutBox.box_type_mk (bt : BoxType) (cs : List LayoutBox) :
    (LayoutBox.mk bt cs).box_type = bt := rfl

@[simp] theorem LayoutBox.children_mk (bt : BoxType) (cs : List LayoutBox) :
    (LayoutBox.mk bt cs).children = cs := rfl

@[simp] theorem BoxType.isBlockBox_blockNode (s : StyledNode) :
    (BoxType.blockNode s).isBlockBox = true := rfl

@[simp] theorem BoxType.isBlockBox_inlineNode (s : StyledNode) :
    (BoxType.inlineNode s).isBlockBox = false := rfl

@[simp] theorem BoxType.isBlockBox_anonymousBlock :
    BoxType.anonymousBlock.isBlockBox = false := rfl

@[simp] theorem BoxType.isInlineBox_blockNode (s : StyledNode) :
    (BoxType.blockNode s).isInlineBox = false := rfl

@[simp] theorem BoxType.isInlineBox_inlineNode (s : StyledNode) :
    (BoxType.inlineNode s).isInlineBox = true := rfl

@[simp] theorem BoxType.isInlineBox_anonymousBlock :
    BoxType.anonymousBlock.isInlineBox = false := rfl

/-- The structural invariant of the box tree: a box whose `box_type` is a
block node never has a direct child whose `box_type` is an inline node,
recursively at every box of the tree. -/
inductive NoBareInline : LayoutBox → Prop where
  | mk (b : LayoutBox) :
      (b.box_type.isBlockBox = true → ∀ c ∈ b.children, c.box_type.isInlineBox = false) →
      (∀ c ∈ b.children, NoBareInline c) →
      NoBareInline b

/-- A freshly created box satisfies the invariant. -/
theorem NoBareInline_new (bt : BoxType) : NoBareInline (LayoutBox.new bt) := by
  refine NoBareInline.mk _ ?_ ?_
  · intro _ c hc
    exact absurd hc (by simp [LayoutBox.new, LayoutBox.children])
  · intro c hc
    exact absurd hc (by simp [LayoutBox.new, LayoutBox.children])

/-- Unfolding lemma for the successor case of `build_layout_tree`. -/
theorem build_layout_tree_succ (n : Nat) (s : StyledNode) :
    build_layout_tree (n + 1) s =
      match s.display with
      | .none => .error (.panicked "Root not has display: none")
      | .block => s.children.foldlM (buildStep (build_layout_tree n) s)
          (LayoutBox.new (.blockNode s))
      | .inline => s.children.foldlM (buildStep (build_layout_tree n) s)
          (LayoutBox.new (.inlineNode s)) := rfl

/-- Routing a box into the inline container preserves the box type of the
receiving box. -/
theorem push_to_inline_container_box_type (root b : LayoutBox) :
    (push_to_inline_container root b).box_type = root.box_type := by
  unfold push_to_inline_container
  split
  · rfl
  · rfl
  · split
    · split
      · rfl
      · rfl
    · rfl

/-- Routing a box into the inline container preserves the invariant: the
pushed box lands in an inline or anonymous container (or a fresh anonymous
block), never bare under a block box. -/
theorem push_to_inline_container_NoBareInline (root b : LayoutBox)
    (hroot : NoBareInline root) (hb : NoBareInline b) :
    NoBareInline (push_to_inline_container root b) := by
  obtain ⟨_, hblk, hkids⟩ := hroot
  unfold push_to_inline_container
  split
  case h_1 s heq =>
    refine NoBareInline.mk _ ?_ ?_
    · intro habs
      simp [heq] at habs
    · intro c hc
      simp only [LayoutBox.children_mk] at hc
      rcases List.mem_append.mp hc with h | h
      · exact hkids c h
      · rw [List.mem_singleton.mp h]
        exact hb
  case h_2 heq =>
    refine NoBareInline.mk _ ?_ ?_
    · intro habs
      simp [heq] at habs
    · intro c hc
      simp only [LayoutBox.children_mk] at hc
      rcases List.mem_append.mp hc with h | h
      · exact hkids c h
      · rw [List.mem_singleton.mp h]
        exact hb
  case h_3 s heq =>
    have hblk' : ∀ c ∈ root.children, c.box_type.isInlineBox = false := by
      intro c hc
      exact hblk (by rw [heq]; rfl) c hc
    split
    case h_1 last hl =>
      split
      case h_1 hlbt =>
        have hlast_mem : last ∈ root.children := List.mem_of_mem_getLast? hl
        obtain ⟨_, hlblk, hlkids⟩ := hkids last hlast_mem
        refine NoBareInline.mk _ ?_ ?_
        · intro _ c hc
          simp only [LayoutBox.children_mk] at hc
          rcases List.mem_append.mp hc with h | h
          · exact hblk' c (List.mem_of_mem_dropLast h)
          · rw [List.mem_singleton.mp h]
            simp [hlbt]
        · intro c hc
          simp only [LayoutBox.children_mk] at hc
          rcases List.mem_append.mp hc with h | h
          · exact hkids c (List.mem_of_mem_dropLast h)
          · rw [List.mem_singleton.mp h]
            refine NoBareInline.mk _ ?_ ?_
            · intro habs
              simp [hlbt] at habs
            · intro d hd
              simp only [LayoutBox.children_mk] at hd
              rcases List.mem_append.mp hd with h' | h'
              · exact hlkids d h'
              · rw [List.mem_singleton.mp h']
                exact hb
      case h_2 hne =>
        refine NoBareInline.mk _ ?_ ?_
        · intro _ c hc
          simp only [LayoutBox.children_mk] at hc
          rcases List.mem_append.mp hc with h | h
          · exact hblk' c h
          · rw [List.mem_singleton.mp h]
            rfl
        · intro c hc
          simp only [LayoutBox.children_mk] at hc
          rcases List.mem_append.mp hc with h | h
          · exact hkids c h
          · rw [List.mem_singleton.mp h]
            refine NoBareInline.mk _ ?_ ?_
            · intro habs
              simp at habs
            · intro d hd
              simp only [LayoutBox.children_mk] at hd
              rw [List.mem_singleton.mp hd]
              exact hb
    case h_2 hl =>
      refine NoBareInline.mk _ ?_ ?_
      · intro _ c hc
        simp only [LayoutBox.children_mk] at hc
        rcases List.mem_append.mp hc with h | h
        · exact hblk' c h
        · rw [List.mem_singleton.mp h]
          rfl
      · intro c hc
        simp only [LayoutBox.children_mk] at hc
        rcases List.mem_append.mp hc with h | h
        · exact hkids c h
        · rw [List.mem_singleton.mp h]
          refine NoBareInline.mk _ ?_ ?_
          · intro habs
            simp at habs
          · intro d hd
            simp only [LayoutBox.children_mk] at hd
            rw [List.mem_singleton.mp hd]
            exact hb

/-- One `buildStep` preserves the box type of the accumulator. -/
theorem buildStep_box_type (f : StyledNode → Except BuildErr LayoutBox)
    (p : StyledNode) (acc : LayoutBox) (c : StyledNode) (acc' : LayoutBox)
    (h : buildStep f p acc c = .ok acc') : acc'.box_type = acc.box_type := by
  unfold buildStep at h
  split at h
  · cases hb : f c with
    | error e =>
      rw [hb] at h
      exact Except.noConfusion h
    | ok b =>
      rw [hb] at h
      have h' := Except.ok.inj h
      rw [← h']
      rfl
  · cases hb : f p with
    | error e =>
      rw [hb] at h
      exact Except.noConfusion h
    | ok b =>
      rw [hb] at h
      have h' := Except.ok.inj h
      rw [← h', push_to_inline_container_box_type]
  · have h' := Except.ok.inj h
    rw [← h']

/-- The fold over the children preserves the box type of the accumulator. -/
theorem foldlM_buildStep_box_type (f : StyledNode → Except BuildErr LayoutBox)
    (p : StyledNode) :
    ∀ (cs : List StyledNode) (acc res : LayoutBox),
      cs.foldlM (buildStep f p) acc = .ok res → res.box_type = acc.box_type := by
  intro cs
  induction cs with
  | nil =>
    intro acc res h
    have h' := Except.ok.inj h
    rw [← h']
  | cons c cs ihl =>
    intro acc res h
    rw [List.foldlM_cons] at h
    cases hs : buildStep f p acc c with
    | error e =>
      rw [hs] at h
      exact Except.noConfusion h
    | ok acc1 =>
      rw [hs] at h
      exact (ihl acc1 res h).trans (buildStep_box_type f p acc c acc1 hs)

/-- The box built for a styled node is a block or inline node box for that
very node, matching its display value. -/
theorem build_layout_tree_box_type (fuel : Nat) (s : StyledNode) (b : LayoutBox)
    (h : build_layout_tree fuel s = .ok b) :
    (s.display = .block ∧ b.box_type = .blockNode s) ∨
    (s.display = .inline ∧ b.box_type = .inlineNode s) := by
  cases fuel with
  | zero => exact Except.noConfusion h
  | succ n =>
    rw [build_layout_tree_succ] at h
    split at h
    · exact Except.noConfusion h
    · exact Or.inl ⟨by assumption, foldlM_buildStep_box_type _ _ _ _ _ h⟩
    · exact Or.inr ⟨by assumption, foldlM_buildStep_box_type _ _ _ _ _ h⟩

/-- One `buildStep` preserves the invariant, assuming every box built at
the inner fuel level satisfies it. -/
theorem buildStep_NoBareInline (n : Nat) (p : StyledNode)
    (ihfuel : ∀ (s : StyledNode) (b : LayoutBox),
      build_layout_tree n s = .ok b → NoBareInline b)
    (acc : LayoutBox) (c : StyledNode) (acc' : LayoutBox)
    (hacc : NoBareInline acc)
    (hs : buildStep (build_layout_tree n) p acc c = .ok acc') :
    NoBareInline acc' := by
  obtain ⟨_, hblk, hkids⟩ := hacc
  unfold buildStep at hs
  split at hs
  case h_1 hd =>
    cases hb : build_layout_tree n c with
    | error e =>
      rw [hb] at hs
      exact Except.noConfusion hs
    | ok b =>
      rw [hb] at hs
      have h' := Except.ok.inj hs
      have hbt : b.box_type = .blockNode c := by
        rcases build_layout_tree_box_type n c b hb with ⟨_, h2⟩ | ⟨h1, _⟩
        · exact h2
        · rw [hd] at h1
          exact Display.noConfusion h1
      rw [← h']
      refine NoBareInline.mk _ ?_ ?_
      · intro _ x hx
        simp only [LayoutBox.children_mk] at hx
        rcases List.mem_append.mp hx with h | h
        · exact hblk (by assumption) x h
        · rw [List.mem_singleton.mp h, hbt]
          rfl
      · intro x hx
        simp only [LayoutBox.children_mk] at hx
        rcases List.mem_append.mp hx with h | h
        · exact hkids x h
        · rw [List.mem_singleton.mp h]
          exact ihfuel c b hb
  case h_2 hd =>
    cases hb : build_layout_tree n p with
    | error e =>
      rw [hb] at hs
      exact Except.noConfusion hs
    | ok b =>
      rw [hb] at hs
      have h' := Except.ok.inj hs
      rw [← h']
      exact push_to_inline_container_NoBareInline acc b
        (NoBareInline.mk _ hblk hkids) (ihfuel p b hb)
  case h_3 hd =>
    have h' := Except.ok.inj hs
    rw [← h']
    exact NoBareInline.mk _ hblk hkids

/-- The fold over the children preserves the invariant. -/
theorem foldlM_buildStep_NoBareInline (n : Nat) (p : StyledNode)
    (ihfuel : ∀ (s : StyledNode) (b : LayoutBox),
      build_layout_tree n s = .ok b → NoBareInline b) :
    ∀ (cs : List StyledNode) (acc res : LayoutBox),
      NoBareInline acc →
      cs.foldlM (buildStep (build_layout_tree n) p) acc = .ok res →
      NoBareInline res := by
  intro cs
  induction cs with
  | nil =>
    intro acc res hacc h
    have h' := Except.ok.inj h
    rw [← h']
    exact hacc
  | cons c cs ihl =>
    intro acc res hacc h
    rw [List.foldlM_cons] at h
    cases hs : buildStep (build_layout_tree n) p acc c with
    | error e =>
      rw [hs] at h
      exact Except.noConfusion h
    | ok acc1 =>
      rw [hs] at h
      exact ihl acc1 res (buildStep_NoBareInline n p ihfuel acc c acc1 hacc hs) h

/-- C6: every layout tree produced by `build_layout_tree` satisfies the
invariant — no box whose type is a block node has a direct child whose
type is an inline node; inline content under a block container always sits
inside an inline or anonymous-block container. -/
theorem C6_no_bare_inline_under_block :
    ∀ (fuel : Nat) (s : StyledNode) (b : LayoutBox),
      build_layout_tree fuel s = .ok b → NoBareInline b := by
  intro fuel
  induction fuel with
  | zero =>
    intro s b h
    exact Except.noConfusion h
  | succ n ih =>
    intro s b h
    rw [build_layout_tree_succ] at h
    split at h
    · exact Except.noConfusion h
    · exact foldlM_buildStep_NoBareInline n s ih s.children _ b
        (NoBareInline_new _) h
    · exact foldlM_buildStep_NoBareInline n s ih s.children _ b
        (NoBareInline_new _) h

/-- A `display: block` element with a single block child (a fixture on
which `build_layout_tree` terminates). -/
def blockWithBlockChild : StyledNode :=
  .mk (elem "div" [] []) [("display", Value.keyword "block")] [blockLeaf]

/-- Witness for C6: the invariant holds of the concrete box tree built for
a block element with one block child. -/
theorem C6_no_bare_inline_under_block_witness :
    NoBareInline (LayoutBox.mk (BoxType.blockNode blockWithBlockChild)
      [LayoutBox.mk (BoxType.blockNode blockLeaf) []]) :=
  C6_no_bare_inline_under_block 2 blockWithBlockChild _ rfl

/-! ### C3: the cascade — helper definitions and lemmas -/

/-- Does the rule declare property `p`? -/
def declaresProp (p : String) (r : Rule) : Bool :=
  r.declarations.any (fun d => d.name = p)

/-- The value of the last declaration for `p` in a declaration list. -/
def lastVal (ds : List Declaration) (p : String) : Option Value :=
  ds.foldl (fun acc d => if d.name = p then some d.value else acc) none

/-- All declarations of a matched-rule list, concatenated in order. -/
def allDecls : List MatchedRule → List Declaration
  | [] => []
  | pr :: rest => pr.2.declarations ++ allDecls rest

/-- Folding the declarations of a rule into the property map (the inner
loop of `specified_values`). -/
def foldDecls (ds : List Declaration) (m : PropertyMap) : PropertyMap :=
  ds.foldl (fun vs d => mapInsert vs d.name d.value) m

/-- Folding a list of matched rules into the property map (the outer loop
of `specified_values`). -/
def foldRules (rs : List MatchedRule) (m : PropertyMap) : PropertyMap :=
  rs.foldl (fun values pr => foldDecls pr.2.declarations values) m

theorem specified_values_eq_foldRules (e : ElementData) (sheet : StyleSheet) :
    specified_values e sheet =
      foldRules (List.insertionSort ruleLe (matching_rules e sheet)) [] := rfl

theorem mapGet_mapInsert {α : Type} (m : List (String × α)) (k : String) (v : α)
    (p : String) :
    mapGet (mapInsert m k v) p = if k = p then some v else mapGet m p := by
  induction m with
  | nil =>
    by_cases h2 : k = p <;> simp [mapGet, mapInsert, h2]
  | cons kv rest ih =>
    obtain ⟨k', v'⟩ := kv
    by_cases h1 : k' = k
    · rw [show mapInsert ((k', v') :: rest) k v = (k, v) :: rest from by
        simp [mapInsert, h1]]
      by_cases h2 : k = p
      · simp [mapGet, h2]
      · have h3 : ¬ k' = p := fun hp => h2 (h1.symm.trans hp)
        simp [mapGet, h2, h3]
    · rw [show mapInsert ((k', v') :: rest) k v = (k', v') :: mapInsert rest k v from by
        simp [mapInsert, h1]]
      by_cases h3 : k' = p
      · have h4 : ¬ k = p := fun hp => h1 (h3.trans hp.symm)
        simp [mapGet, h3, h4]
      · simp [mapGet, h3, ih]

theorem lastVal_foldl (p : String) :
    ∀ (ds : List Declaration) (acc : Option Value),
      ds.foldl (fun acc d => if d.name = p then some d.value else acc) acc =
        (lastVal ds p).or acc := by
  intro ds
  induction ds with
  | nil =>
    intro acc
    simp [lastVal, Option.or]
  | cons d rest ih =>
    intro acc
    rw [List.foldl_cons, ih]
    have hl : lastVal (d :: rest) p =
        (lastVal rest p).or (if d.name = p then some d.value else none) := by
      unfold lastVal
      rw [List.foldl_cons, ih]
      rfl
    rw [hl]
    cases hres : lastVal rest p with
    | some v => simp [Option.or]
    | none => by_cases hd : d.name = p <;> simp [hd, Option.or]

theorem lastVal_cons (d : Declaration) (rest : List Declaration) (p : String) :
    lastVal (d :: rest) p =
      (lastVal rest p).or (if d.name = p then some d.value else none) := by
  unfold lastVal
  rw [List.foldl_cons, lastVal_foldl]
  rfl

theorem lastVal_append (ds1 ds2 : List Declaration) (p : String) :
    lastVal (ds1 ++ ds2) p = (lastVal ds2 p).or (lastVal ds1 p) := by
  unfold lastVal
  rw [List.foldl_append, lastVal_foldl]
  rfl

theorem mapGet_foldDecls (p : String) :
    ∀ (ds : List Declaration) (m : PropertyMap),
      mapGet (foldDecls ds m) p = (lastVal ds p).or (mapGet m p) := by
  intro ds
  induction ds with
  | nil =>
    intro m
    simp [foldDecls, lastVal, Option.or]
  | cons d rest ih =>
    intro m
    show mapGet (foldDecls rest (mapInsert m d.name d.value)) p = _
    rw [ih, mapGet_mapInsert, lastVal_cons]
    cases hres : lastVal rest p with
    | some v => simp [Option.or]
    | none => by_cases hd : d.name = p <;> simp [hd, Option.or]

theorem allDecls_append (xs ys : List MatchedRule) :
    allDecls (xs ++ ys) = allDecls xs ++ allDecls ys := by
  induction xs with
  | nil => rfl
  | cons x xs ih => simp [allDecls, ih]

theorem mapGet_foldRules (p : String) :
    ∀ (rs : List MatchedRule) (m : PropertyMap),
      mapGet (foldRules rs m) p = (lastVal (allDecls rs) p).or (mapGet m p) := by
  intro rs
  induction rs with
  | nil =>
    intro m
    simp [foldRules, allDecls, lastVal, Option.or]
  | cons pr rest ih =>
    intro m
    show mapGet (foldRules rest (foldDecls pr.2.declarations m)) p = _
    rw [ih, mapGet_foldDecls,
      show allDecls (pr :: rest) = pr.2.declarations ++ allDecls rest from rfl,
      lastVal_append, Option.or_assoc]

theorem lastVal_eq_none_of_not_declares (p : String) :
    ∀ ds : List Declaration, (∀ d ∈ ds, ¬ d.name = p) → lastVal ds p = none := by
  intro ds
  induction ds with
  | nil => intro _; rfl
  | cons d rest ih =>
    intro h
    rw [lastVal_cons, ih (fun d' hd' => h d' (List.mem_cons_of_mem d hd'))]
    simp [h d (List.mem_cons_self d rest), Option.or]

theorem lastVal_isSome_of_any (p : String) :
    ∀ ds : List Declaration, ds.any (fun d => d.name = p) = true →
      (lastVal ds p).isSome = true := by
  intro ds
  induction ds with
  | nil =>
    intro h
    exact absurd h (by simp)
  | cons d rest ih =>
    intro h
    rw [lastVal_cons]
    by_cases hd : d.name = p
    · cases hres : lastVal rest p <;> simp [Option.or, hd]
    · have h2 : rest.any (fun d => d.name = p) = true := by
        simpa [List.any_cons, hd] using h
      have h3 := ih h2
      cases hres : lastVal rest p with
      | none => rw [hres] at h3; exact absurd h3 (by simp)
      | some v => simp [Option.or, hd]

theorem lastVal_allDecls_filter_declares (p : String) :
    ∀ rs : List MatchedRule,
      lastVal (allDecls rs) p =
        lastVal (allDecls (rs.filter (fun pr => declaresProp p pr.2))) p := by
  intro rs
  induction rs with
  | nil => rfl
  | cons pr rest ih =>
    rw [show allDecls (pr :: rest) = pr.2.declarations ++ allDecls rest from rfl,
      lastVal_append]
    cases hd : declaresProp p pr.2 with
    | true =>
      rw [List.filter_cons]
      simp only [hd, if_pos]
      rw [show allDecls (pr :: rest.filter (fun pr => declaresProp p pr.2)) =
          pr.2.declarations ++ allDecls (rest.filter (fun pr => declaresProp p pr.2))
          from rfl,
        lastVal_append, ih]
    | false =>
      have hnone : lastVal pr.2.declarations p = none := by
        apply lastVal_eq_none_of_not_declares
        intro d hd' hname
        have hdecl : declaresProp p pr.2 = true := by
          unfold declaresProp
          rw [List.any_eq_true]
          exact ⟨d, hd', by simp [hname]⟩
        rw [hd] at hdecl
        exact Bool.noConfusion hdecl
      rw [hnone, Option.or_none, ih, List.filter_cons]
      simp [hd]

theorem filter_specEq_orderedInsert (s : Specificity) (x : MatchedRule) :
    ∀ l : List MatchedRule,
      (List.orderedInsert ruleLe x l).filter (fun y => y.1 = s) =
        if x.1 = s then x :: l.filter (fun y => y.1 = s)
        else l.filter (fun y => y.1 = s) := by
  intro l
  induction l with
  | nil =>
    by_cases hx : x.1 = s <;> simp [List.orderedInsert, hx]
  | cons y ys ih =>
    rw [List.orderedInsert]
    by_cases hr : ruleLe x y
    · rw [if_pos hr]
      by_cases hx : x.1 = s <;> simp [hx]
    · rw [if_neg hr]
      by_cases hx : x.1 = s
      · have hy : ¬ y.1 = s := by
          intro hys
          apply hr
          unfold ruleLe
          rw [hx, hys]
          exact specLe_refl s
        simp [List.filter_cons, hy, ih, hx]
      · simp [List.filter_cons, ih, hx]

theorem filter_specEq_insertionSort (s : Specificity) :
    ∀ l : List MatchedRule,
      (List.insertionSort ruleLe l).filter (fun y => y.1 = s) =
        l.filter (fun y => y.1 = s) := by
  intro l
  induction l with
  | nil => rfl
  | cons x xs ih =>
    rw [List.insertionSort, filter_specEq_orderedInsert, ih]
    by_cases hx : x.1 = s <;> simp [hx]

theorem filter_subpred (dP sq : MatchedRule → Bool) :
    ∀ l : List MatchedRule, (∀ x ∈ l, dP x = true → sq x = true) →
      l.filter dP = (l.filter sq).filter dP := by
  intro l
  induction l with
  | nil => intro _; rfl
  | cons x xs ih =>
    intro h
    have hxs := ih (fun a ha => h a (List.mem_cons_of_mem x ha))
    cases hdp : dP x with
    | true =>
      have hsq := h x (List.mem_cons_self x xs) hdp
      simp [List.filter_cons, hdp, hsq, hxs]
    | false =>
      cases hsq : sq x with
      | true => simp [List.filter_cons, hdp, hsq, hxs]
      | false => simp [List.filter_cons, hdp, hsq, hxs]

/-- `match_rule` returns the rule it was given. -/
theorem match_rule_snd (e : ElementData) (r : Rule) (pr : MatchedRule)
    (h : match_rule e r = some pr) : pr.2 = r := by
  unfold match_rule at h
  cases hf : r.selectors.find? (fun sel => selector_matches e sel) with
  | none =>
    rw [hf] at h
    exact Option.noConfusion h
  | some sel =>
    rw [hf] at h
    have h2 := Option.some.inj h
    rw [← h2]

/-! ### C3: equal specificity — the later rule wins -/

/-- C3: for an element and a stylesheet containing two matching rules of
equal specificity `s` — `ri` declared earlier, `rj` declared later — and a
property name `p` both declare, the cascade's winning value for `p` is the
value of `rj`'s (last) declaration of `p`.  The side conditions pin down
that the pair's tie-break is what decides `p`: every matching rule
declaring `p` has the same specificity `s`, and no rule after `rj` both
matches and declares `p` (otherwise that rule, not `rj`, would be "the
later rule" of the claim).  The proof goes through the stability of the
ascending sort and the overwrite-on-insert fold of `specified_values`. -/
theorem C3_equal_specificity_later_rule_wins :
    ∀ (e : ElementData) (pre mid post : List Rule) (ri rj : Rule)
      (p : String) (s : Specificity),
      match_rule e ri = some (s, ri) →
      match_rule e rj = some (s, rj) →
      declaresProp p ri = true →
      declaresProp p rj = true →
      (∀ r ∈ pre ++ ri :: (mid ++ rj :: post), ∀ pr : MatchedRule,
        match_rule e r = some pr → declaresProp p r = true → pr.1 = s) →
      (∀ r ∈ post, ∀ pr : MatchedRule, match_rule e r = some pr →
        declaresProp p r = false) →
      mapGet (specified_values e ⟨pre ++ ri :: (mid ++ rj :: post)⟩) p =
        lastVal rj.declarations p ∧
      (lastVal rj.declarations p).isSome = true := by
  intro e pre mid post ri rj p s hri hrj hdi hdj ha hb
  refine ⟨?_, lastVal_isSome_of_any p rj.declarations hdj⟩
  have hchar : mapGet (specified_values e ⟨pre ++ ri :: (mid ++ rj :: post)⟩) p
      = lastVal (allDecls (List.insertionSort ruleLe
          (matching_rules e ⟨pre ++ ri :: (mid ++ rj :: post)⟩))) p := by
    rw [specified_values_eq_foldRules, mapGet_foldRules,
      show mapGet ([] : PropertyMap) p = none from rfl, Option.or_none]
  rw [hchar]
  have hmatched : matching_rules e ⟨pre ++ ri :: (mid ++ rj :: post)⟩ =
      pre.filterMap (fun r => match_rule e r) ++ (s, ri) ::
        (mid.filterMap (fun r => match_rule e r) ++ (s, rj) ::
          post.filterMap (fun r => match_rule e r)) := by
    unfold matching_rules
    simp [List.filterMap_append, List.filterMap_cons, hri, hrj]
  have hmem_spec : ∀ x ∈ matching_rules e ⟨pre ++ ri :: (mid ++ rj :: post)⟩,
      declaresProp p x.2 = true → (decide (x.1 = s)) = true := by
    intro x hx hdx
    unfold matching_rules at hx
    obtain ⟨r, hr_mem, hr_eq⟩ := List.mem_filterMap.mp hx
    have hx2 : x.2 = r := match_rule_snd e r x hr_eq
    rw [decide_eq_true_eq]
    exact ha r hr_mem x hr_eq (by rw [← hx2]; exact hdx)
  have hsorted_spec : ∀ x ∈ List.insertionSort ruleLe
      (matching_rules e ⟨pre ++ ri :: (mid ++ rj :: post)⟩),
      declaresProp p x.2 = true → (decide (x.1 = s)) = true := by
    intro x hx hdx
    exact hmem_spec x ((List.mem_insertionSort ruleLe).mp hx) hdx
  have hstep1 : (List.insertionSort ruleLe
        (matching_rules e ⟨pre ++ ri :: (mid ++ rj :: post)⟩)).filter
          (fun pr => declaresProp p pr.2) =
      (matching_rules e ⟨pre ++ ri :: (mid ++ rj :: post)⟩).filter
          (fun pr => declaresProp p pr.2) := by
    rw [filter_subpred (fun pr => declaresProp p pr.2) (fun y => y.1 = s) _
        hsorted_spec,
      filter_specEq_insertionSort,
      ← filter_subpred (fun pr => declaresProp p pr.2) (fun y => y.1 = s) _
        hmem_spec]
  have hpost : (post.filterMap (fun r => match_rule e r)).filter
      (fun pr => declaresProp p pr.2) = [] := by
    rw [List.filter_eq_nil_iff]
    intro x hx
    obtain ⟨r, hr_mem, hr_eq⟩ := List.mem_filterMap.mp hx
    have hx2 : x.2 = r := match_rule_snd e r x hr_eq
    rw [hx2, hb r hr_mem x hr_eq]
    simp
  have hfil : (matching_rules e ⟨pre ++ ri :: (mid ++ rj :: post)⟩).filter
      (fun pr => declaresProp p pr.2) =
      ((pre.filterMap (fun r => match_rule e r)).filter
          (fun pr => declaresProp p pr.2) ++ (s, ri) ::
        (mid.filterMap (fun r => match_rule e r)).filter
          (fun pr => declaresProp p pr.2)) ++ [(s, rj)] := by
    rw [hmatched]
    simp [List.filter_append, List.filter_cons, hdi, hdj, hpost]
  rw [lastVal_allDecls_filter_declares, hstep1, hfil, allDecls_append,
    show allDecls [((s : Specificity), rj)] = rj.declarations ++ [] from rfl,
    List.append_nil, lastVal_append]
  obtain ⟨v, hv⟩ := Option.isSome_iff_exists.mp
    (lastVal_isSome_of_any p rj.declarations hdj)
  rw [hv]
  simp [Option.or]

/-! ### C3 fixtures and witness -/

/-- A tag selector for `p` elements. -/
def selP : Selector :=
  .simple ⟨some "p", Option.none, []⟩

/-- `p { color: red }` — the earlier rule. -/
def ruleRed : Rule :=
  ⟨[selP], [⟨"color", Value.keyword "red"⟩]⟩

/-- `p { color: blue }` — the later rule of equal specificity. -/
def ruleBlue : Rule :=
  ⟨[selP], [⟨"color", Value.keyword "blue"⟩]⟩

/-- Witness for C3: with the two equal-specificity rules `p { color: red }`
then `p { color: blue }`, the cascade resolves `color` to the later rule's
`blue`. -/
theorem C3_equal_specificity_later_rule_wins_witness :
    mapGet (specified_values ⟨"p", []⟩ ⟨[ruleRed, ruleBlue]⟩) "color" =
      some (Value.keyword "blue") := by
  have h := (C3_equal_specificity_later_rule_wins ⟨"p", []⟩ [] [] [] ruleRed ruleBlue
    "color" (0, 0, 1) rfl rfl rfl rfl
    (by
      intro r hr pr hpr hdp
      rcases List.mem_cons.mp hr with h1 | hr2
      · subst h1
        have h2 := Option.some.inj hpr
        rw [← h2]
        rfl
      · rcases List.mem_cons.mp hr2 with h1 | hr3
        · subst h1
          have h2 := Option.some.inj hpr
          rw [← h2]
          rfl
        · exact absurd hr3 (by simp))
    (by
      intro r hr
      exact absurd hr (by simp))).1
  exact h.trans rfl

/-! ### C8: the styled tree mirrors the document tree -/

/-- The styled node mirrors the document node: it holds that very node,
and its styled children mirror the node's children one-to-one, in order
(hence same node count and same child order). -/
inductive Mirrors : StyledNode → Node → Prop where
  | mk (s : StyledNode) (n : Node) :
      s.node = n →
      List.Forall₂ Mirrors s.children n.children →
      Mirrors s n

/-- Every styled node sitting on a text node carries the empty property
map, recursively through the tree. -/
inductive TextsEmpty : StyledNode → Prop where
  | mk (s : StyledNode) :
      (∀ t : String, s.node.node_type = .Text t → s.specified_values = []) →
      (∀ c ∈ s.children, TextsEmpty c) →
      TextsEmpty s

theorem style_forest_eq (ns : List Node) (sheet : StyleSheet) :
    style_forest ns sheet = ns.map (fun n => style_tree n sheet) := by
  induction ns with
  | nil => rfl
  | cons n rest ih =>
    rw [show style_forest (n :: rest) sheet =
      style_tree n sheet :: style_forest rest sheet from rfl, ih, List.map_cons]

theorem forall2_style_forest (sheet : StyleSheet) (cs : List Node)
    (h : ∀ c ∈ cs, Mirrors (style_tree c sheet) c) :
    List.Forall₂ Mirrors (style_forest cs sheet) cs := by
  induction cs with
  | nil => exact List.Forall₂.nil
  | cons c rest ih =>
    rw [show style_forest (c :: rest) sheet =
      style_tree c sheet :: style_forest rest sheet from rfl]
    exact List.Forall₂.cons (h c (List.mem_cons_self c rest))
      (ih (fun a ha => h a (List.mem_cons_of_mem c ha)))

theorem C8_aux (sheet : StyleSheet) :
    ∀ (k : Nat) (n : Node), sizeOf n ≤ k →
      Mirrors (style_tree n sheet) n ∧ TextsEmpty (style_tree n sheet) := by
  intro k
  induction k with
  | zero =>
    intro n h
    obtain ⟨nt, cs⟩ := n
    rw [Node.mk.sizeOf_spec] at h
    omega
  | succ k ih =>
    intro n h
    obtain ⟨nt, cs⟩ := n
    rw [Node.mk.sizeOf_spec] at h
    have hchild : ∀ c ∈ cs, sizeOf c ≤ k := by
      intro c hc
      have h1 : sizeOf c < sizeOf cs := List.sizeOf_lt_of_mem hc
      omega
    have hcs : ∀ c ∈ cs, Mirrors (style_tree c sheet) c ∧ TextsEmpty (style_tree c sheet) :=
      fun c hc => ih c (hchild c hc)
    constructor
    · refine Mirrors.mk _ _ rfl ?_
      rw [show (style_tree (Node.mk nt cs) sheet).children = style_forest cs sheet
        from rfl]
      exact forall2_style_forest sheet cs (fun c hc => (hcs c hc).1)
    · refine TextsEmpty.mk _ ?_ ?_
      · intro t ht
        have hnt : nt = NodeType.Text t := ht
        subst hnt
        rfl
      · intro c hc
        have hc' : c ∈ style_forest cs sheet := hc
        rw [style_forest_eq] at hc'
        obtain ⟨c0, hc0, hceq⟩ := List.mem_map.mp hc'
        rw [← hceq]
        exact (hcs c0 hc0).2

/-- C8: for every document tree and stylesheet, `style_tree` returns a
styled tree of exactly the same shape — one styled node per document node,
same child order (hence the same node count) — and every styled node
sitting on a text node has the empty property map. -/
theorem C8_style_tree_mirrors_document :
    ∀ (n : Node) (sheet : StyleSheet),
      Mirrors (style_tree n sheet) n ∧ TextsEmpty (style_tree n sheet) := by
  intro n sheet
  exact C8_aux sheet (sizeOf n) n (Nat.le_refl _)

end Robinson
